import Mathlib

/-!
Verification development for the calcium/blood-flow analysis repository.

The definitions below are a shallow embedding of the Python source files:

* `src/ca_analysis/dff_tools.py` (`locate_spikes_peakutils`),
* `src/ca_analysis/vasc_occ_analysis.py` (`VascOccAnalyzer._find_spikes`),
* `src/calcium_bflow_analysis/vasc_occ_parsing.py`
  (`VascOccParser._get_params`, `concat_vasc_occ_dataarrays`),
* `src/calcium_bflow_analysis/calcium_over_time.py`
  (`FileFinder._find_all_relevant_files`).

Python floats are modelled as exact rationals (`ℚ`), Python ints as `ℤ`/`ℕ`.
Third-party library behaviour that the source delegates to (the
`peakutils.indexes` peak picker, `numpy` array construction, and the
coordinate bookkeeping of `xarray.DataArray`/`xarray.concat`) is modelled
from its documented semantics and from the specification's description,
as noted on each definition.
-/

/-- Decidable equality of exception-carrying results, for evaluating the
embedded functions on concrete inputs. -/
instance {ε α : Type} [DecidableEq ε] [DecidableEq α] : DecidableEq (Except ε α) := fun a b =>
  match a, b with
  | .error e, .error f =>
    if h : e = f then .isTrue (by rw [h]) else .isFalse (by intro hc; cases hc; exact h rfl)
  | .error _, .ok _ => .isFalse (by intro hc; cases hc)
  | .ok _, .error _ => .isFalse (by intro hc; cases hc)
  | .ok x, .ok y =>
    if h : x = y then .isTrue (by rw [h]) else .isFalse (by intro hc; cases hc; exact h rfl)

/-- Python's `int(x)` applied to a float: truncation toward zero. -/
def pyInt (q : ℚ) : ℤ :=
  if 0 ≤ q then ⌊q⌋ else ⌈q⌉

/-- Python's `round(x)` applied to a float: round half to even. -/
def pyRound (q : ℚ) : ℤ :=
  let f := ⌊q⌋
  let r := q - (f : ℚ)
  if r < 1/2 then f
  else if 1/2 < r then f + 1
  else if f % 2 = 0 then f else f + 1

/-- Largest element of a fluorescence row (`numpy` max; 0 for an empty row,
which `numpy` would reject — callers only use nonempty rows). -/
def listMax : List ℚ → ℚ
  | [] => 0
  | x :: xs => xs.foldl max x

/-- Smallest element of a fluorescence row. -/
def listMin : List ℚ → ℚ
  | [] => 0
  | x :: xs => xs.foldl min x

/-- Modelled from the spec: interior strict local maxima of a trace that
exceed the normalized amplitude threshold, as `peakutils.indexes` finds
them ("identify local maxima whose normalized amplitude exceeds
`amplitude_threshold` (amplitude normalized per-cell to its own range)").
The walk keeps the two previous samples and the running index: sample `i`
(for `0 < i < n - 1`) is a candidate when it is strictly above both
neighbours and strictly above `thresh * (max - min) + min`. -/
def candRec (cut : ℚ) : ℚ → ℚ → ℕ → List ℚ → List ℕ
  | _, _, _, [] => []
  | prev, cur, i, next :: rest =>
    (if prev < cur ∧ next < cur ∧ cut < cur then [i] else []) ++
      candRec cut cur next (i + 1) rest

/-- Candidate peaks of one cell's trace at a given normalized threshold. -/
def peakCandidates (cell : List ℚ) (thresh : ℚ) : List ℕ :=
  match cell with
  | [] => []
  | [_] => []
  | x0 :: x1 :: rest =>
    candRec (thresh * (listMax cell - listMin cell) + listMin cell) x0 x1 1 rest

/-- Amplitude of the sample at index `i` (0 outside the trace). -/
def cellGet (cell : List ℚ) (i : ℕ) : ℚ := cell.getD i 0

/-- Insert an index into an amplitude-sorted (descending) worklist; ties are
broken by the smaller index, making the ordering deterministic. -/
def insertByAmp (cell : List ℚ) (i : ℕ) : List ℕ → List ℕ
  | [] => [i]
  | j :: rest =>
    if cellGet cell j < cellGet cell i ∨ (cellGet cell i = cellGet cell j ∧ i ≤ j) then
      i :: j :: rest
    else
      j :: insertByAmp cell i rest

/-- Sort candidate peaks by amplitude, highest first. -/
def sortByAmp (cell : List ℚ) (l : List ℕ) : List ℕ :=
  l.foldr (insertByAmp cell) []

/-- Distance between two sample indices. -/
def natDist (a b : ℕ) : ℕ := max a b - min a b

/-- Modelled from the spec: greedy minimum-distance enforcement of
`peakutils.indexes` ("which are separated from the previous accepted peak
by at least `min_separation_frames` samples; when two candidate peaks lie
within `min_separation_frames`, the one with higher amplitude wins").
Candidates are visited in decreasing amplitude; one is accepted when it is
at least `minDist` away from every previously accepted peak. -/
def selectPeaks (minDist : ℕ) (l : List ℕ) : List ℕ :=
  l.foldl
    (fun acc c =>
      if acc.all (fun a => decide (minDist ≤ natDist a c)) then acc ++ [c] else acc)
    []

/-- Modelled from the spec: the external `peakutils.indexes(cell, thres,
min_dist)` call used by the spike detector, absent from `src/`. -/
def peakutilsIndexes (cell : List ℚ) (thresh : ℚ) (minDist : ℕ) : List ℕ :=
  selectPeaks minDist (sortByAmp cell (peakCandidates cell thresh))

/-- Row of the spike matrix for one cell: a 0/1 trace of the same length as
the input trace, with 1 exactly at the detected peak indices
(`all_spikes[row, peaks] = 1` on a `zeros_like` array). -/
def markPeaks (peaks : List ℕ) : ℕ → List ℚ → List ℚ
  | _, [] => []
  | i, _ :: rest => (if peaks.contains i then 1 else 0) :: markPeaks peaks (i + 1) rest

/-- Spike matrix produced for a 2-D dF/F matrix at a given minimum peak
distance: each row is processed independently. -/
def locateSpikesCore (data : List (List ℚ)) (minDist : ℕ) (thresh : ℚ) : List (List ℚ) :=
  data.map (fun cell => markPeaks (peakutilsIndexes cell thresh minDist) 0 cell)

/-- A `numpy` array argument as passed to `locate_spikes_peakutils`: either a
1-D vector or a 2-D matrix (`data.shape` has the corresponding length). -/
inductive NpArray where
  | oneD : List ℚ → NpArray
  | twoD : List (List ℚ) → NpArray
deriving DecidableEq

/-- Number of axes of the array (`len(data.shape)`). -/
def NpArray.ndim : NpArray → ℕ
  | .oneD _ => 1
  | .twoD _ => 2

/-- Extent of the first axis (`data.shape[0]`). -/
def NpArray.shape0 : NpArray → ℕ
  | .oneD v => v.length
  | .twoD m => m.length

/-- Embedding of `locate_spikes_peakutils` (src/ca_analysis/dff_tools.py,
lines 47-60): assert that the input is 2-D with at least one row, set
`min_dist = int(fps)`, and run `peakutils.indexes` on every row. A failed
`assert` is an `AssertionError` exception. -/
def locate_spikes_peakutils (data : NpArray) (fps : ℚ) (thresh : ℚ) :
    Except String (List (List ℚ)) :=
  match data with
  | .twoD m =>
    if 0 < m.length then
      .ok (locateSpikesCore m (pyInt fps).toNat thresh)
    else
      .error "AssertionError"
  | .oneD _ => .error "AssertionError"

/-- Per-cell epoch spike counting of `VascOccAnalyzer._find_spikes`
(src/ca_analysis/vasc_occ_analysis.py, lines 86-89): for one cell's detected
peak indices `idx`, `before = len(idx[idx < before_occ])`,
`during = len(idx[(idx >= before_occ) & (idx < before_occ + during_occ)])`
scaled by `before_occ / during_occ`, and
`after = len(idx[idx >= before_occ + during_occ])` scaled by
`before_occ / frames_after_occ`. -/
def findSpikesCellCounts (idx : List ℕ) (before_occ during_occ after_occ : ℕ) :
    ℚ × ℚ × ℚ :=
  (((idx.filter (fun i => decide (i < before_occ))).length : ℚ),
   ((idx.filter (fun i =>
      decide (before_occ ≤ i) && decide (i < before_occ + during_occ))).length : ℚ) *
     ((before_occ : ℚ) / (during_occ : ℚ)),
   ((idx.filter (fun i => decide (before_occ + during_occ ≤ i))).length : ℚ) *
     ((before_occ : ℚ) / (after_occ : ℚ)))

/-- Embedding of `VascOccAnalyzer._find_spikes`
(src/ca_analysis/vasc_occ_analysis.py, lines 69-93): threshold 0.8,
`min_dist = int(fps)`; every row of the dF/F matrix is peak-picked with
`peakutils.indexes`, marked into an `all_spikes` matrix, and counted per
epoch with the normalization factors above. -/
def find_spikes (dff : List (List ℚ)) (fps : ℚ)
    (before_occ during_occ after_occ : ℕ) :
    (List (List ℚ)) × List (ℚ × ℚ × ℚ) :=
  (dff.map (fun cell => markPeaks (peakutilsIndexes cell (8/10) (pyInt fps).toNat) 0 cell),
   dff.map (fun cell =>
     findSpikesCellCounts (peakutilsIndexes cell (8/10) (pyInt fps).toNat)
       before_occ during_occ after_occ))

/-- ScanImage metadata block of a TIF recording, as read by
`VascOccParser._get_params`: frame rate, active channel list, and frames
per slice. -/
structure ScanImageMeta where
  scanFrameRate : ℚ
  channelsActive : List ℤ
  framesPerSlice : ℤ
deriving DecidableEq

/-- Fields of `VascOccParser` set by `_get_params`. The `start_time` field
(a file-modification timestamp read from the filesystem) is outside the
model. `num_of_channels` is `none` in the fallback branch, which does not
assign it. -/
structure OccParams where
  fps : ℚ
  num_of_channels : Option ℕ
  frames_after_stim : ℤ
  timestamps : Option (List ℚ)
deriving DecidableEq

/-- Timestamp vector `np.arange(num_of_frames) / fps`. -/
def timestampsOf (numFrames : ℤ) (fps : ℚ) : List ℚ :=
  (List.range numFrames.toNat).map (fun i => (i : ℚ) / fps)

/-- Embedding of `VascOccParser._get_params`
(src/calcium_bflow_analysis/vasc_occ_parsing.py, lines 134-158). A readable
ScanImage metadata block is `some meta`; a malformed block (the caught
`TypeError`) is `none` and triggers the fallback defaults
(`frames_after_stim = 1000`, `fps = 58.31`). In the successful branch
`frames_after_stim = framesPerSlice - (frames_before_stim +
len_of_epoch_in_frames)` is stored unconditionally: the source has no
raise path and no check on the sign of the result. -/
def get_params (meta : Option ScanImageMeta)
    (frames_before_stim len_of_epoch_in_frames : ℤ) : OccParams :=
  match meta with
  | some m =>
    { fps := m.scanFrameRate
      num_of_channels := some m.channelsActive.length
      frames_after_stim :=
        m.framesPerSlice - (frames_before_stim + len_of_epoch_in_frames)
      timestamps := some (timestampsOf m.framesPerSlice m.scanFrameRate) }
  | none =>
    { fps := 5831/100
      num_of_channels := none
      frames_after_stim := 1000
      timestamps := none }

/-- An `xarray.DataArray` with dims `(epoch, neuron, time)` as produced per
FOV by the analog pipeline: coordinate labels for each axis plus the data
cube (`data[e][n][t]`). -/
structure DataArr where
  epoch : List String
  neuron : List ℕ
  time : List ℚ
  data : List (List (List ℚ))
deriving DecidableEq

/-- Coordinate lengths agree with the data cube's axis extents (true of any
actual `xarray.DataArray`, whose coords are validated at construction). -/
def DataArr.wf (da : DataArr) : Prop :=
  da.data.length = da.epoch.length ∧
  ∀ p ∈ da.data, p.length = da.neuron.length ∧
    ∀ row ∈ p, row.length = da.time.length

/-- Well-formedness is checkable on concrete records. -/
instance (da : DataArr) : Decidable da.wf :=
  inferInstanceAs (Decidable (da.data.length = da.epoch.length ∧
    ∀ p ∈ da.data, p.length = da.neuron.length ∧
      ∀ row ∈ p, row.length = da.time.length))

/-- Modelled from xarray semantics: `xr.DataArray(data=..., coords=...)`
raises `ValueError` ("conflicting sizes for dimension ...") when a
coordinate's length disagrees with the corresponding data axis extent;
otherwise it builds the array with the given coordinates
(vasc_occ_parsing.py, lines 230-235). -/
def reindexDa (crdEpoch : List String) (crdNeuron : List ℕ) (crdTime : List ℚ)
    (da : DataArr) : Except String DataArr :=
  if da.data.length = crdEpoch.length ∧
      ∀ p ∈ da.data, p.length = crdNeuron.length ∧
        ∀ row ∈ p, row.length = crdTime.length then
    .ok ⟨crdEpoch, crdNeuron, crdTime, da.data⟩
  else
    .error "ValueError: conflicting sizes"

/-- The loop of `concat_vasc_occ_dataarrays` (vasc_occ_parsing.py, lines
226-237): for each array take `crd_neuron = arange(num, num + len(neuron))`,
adopt the array's own time coordinate whenever its length differs from the
current one, and rebuild the array with the shared epoch coordinate. -/
def concatLoop :
    List DataArr → List String → List ℚ → ℕ → Except String (List DataArr)
  | [], _, _, _ => .ok []
  | da :: rest, crdEpoch, crdTime, numNeurons =>
    let crdNeuron := List.range' numNeurons da.neuron.length
    let crdTime' := if da.time.length ≠ crdTime.length then da.time else crdTime
    match reindexDa crdEpoch crdNeuron crdTime' da with
    | .error e => .error e
    | .ok rda =>
      match concatLoop rest crdEpoch crdTime' (numNeurons + da.neuron.length) with
      | .error e => .error e
      | .ok rs => .ok (rda :: rs)

/-- Insert a time value into a sorted list. -/
def insertSorted (q : ℚ) : List ℚ → List ℚ
  | [] => [q]
  | x :: xs => if q ≤ x then q :: x :: xs else x :: insertSorted q xs

/-- Sorted duplicate-free list of the given values. -/
def sortedDedup (l : List ℚ) : List ℚ :=
  l.dedup.foldr insertSorted []

/-- Modelled from xarray semantics: the index that `xr.concat`'s default
outer join gives a non-concatenated dimension — the sorted union of the
inputs' coordinates. -/
def unionTimes (ls : List (List ℚ)) : List ℚ :=
  sortedDedup (ls.foldr (· ++ ·) [])

/-- Re-express one cell's trace on the joined time axis: positions whose
time value the record lacks become missing values (`NaN` fill). -/
def alignRow (times : List ℚ) (uTime : List ℚ) (row : List ℚ) : List (Option ℚ) :=
  uTime.map (fun t =>
    match times.findIdx? (fun x => decide (x = t)) with
    | some k => some (row.getD k 0)
    | none => none)

/-- Result of `xr.concat(new_da_list, dim="neuron")`: epoch is the shared
coordinate, the neuron axis is the concatenation of the inputs' neuron
coordinates, and the time axis is the outer join of their time coordinates,
data being NaN-padded accordingly. -/
structure OccDataset where
  epoch : List String
  neuron : List ℕ
  time : List ℚ
  data : List (List (List (Option ℚ)))
deriving DecidableEq

/-- Modelled from xarray semantics: `xr.concat` along `neuron` with the
default outer join on `time` (all inputs already share the epoch
coordinate by construction). -/
def xrConcatNeuron (rs : List DataArr) (crdEpoch : List String) : OccDataset :=
  let uTime := unionTimes (rs.map (fun r => r.time))
  { epoch := crdEpoch
    neuron := (rs.map (fun r => r.neuron)).foldr (· ++ ·) []
    time := uTime
    data := (List.range crdEpoch.length).map (fun e =>
      (rs.map (fun r => (r.data.getD e []).map (alignRow r.time uTime))).foldr
        (· ++ ·) []) }

/-- Embedding of `concat_vasc_occ_dataarrays`
(src/calcium_bflow_analysis/vasc_occ_parsing.py, lines 219-239).
`da_list[0]` on an empty list raises `IndexError`. -/
def concat_vasc_occ_dataarrays (daList : List DataArr) :
    Except String OccDataset :=
  match daList with
  | [] => .error "IndexError"
  | d0 :: _ =>
    match concatLoop daList d0.epoch d0.time 0 with
    | .error e => .error e
    | .ok rs => .ok (xrConcatNeuron rs d0.epoch)

/-- The time coordinate adopted for each record by the concatenation loop:
starting from the first record's coordinate, a record's own coordinate is
adopted exactly when its length differs from the current one. -/
def adoptedTimes : List ℚ → List DataArr → List (List ℚ)
  | _, [] => []
  | crd, da :: rest =>
    let crd' := if da.time.length ≠ crd.length then da.time else crd
    crd' :: adoptedTimes crd' rest

/-- Contiguous index blocks `[o, o+n₀), [o+n₀, o+n₀+n₁), …` for the given
block sizes. -/
def offsetRanges : ℕ → List ℕ → List (List ℕ)
  | _, [] => []
  | o, n :: ns => List.range' o n :: offsetRanges (o + n) ns

/-- One `.tif` primary file as seen by `FileFinder`, together with what the
surrounding directory tree offers for it: the (first) glob match for its
analog `.txt`, results `.npz` and colabeled `.npy` counterparts, and
whether a previously-computed `.nc` output with the same stem exists. -/
structure TifEntry where
  tif : String
  analog : Option String
  results : Option String
  colabeled : Option String
  nc : Bool
deriving DecidableEq

/-- One row of the table built by `FileFinder`: the primary file and its
appended companions (`analog` and `colabeled` stay `None` when not
required). -/
structure FileGroup where
  tif : String
  analog : Option String
  caiman : Option String
  colabeled : Option String
deriving DecidableEq

/-- Body of the discovery loop of `FileFinder._find_all_relevant_files`
(src/calcium_bflow_analysis/calcium_over_time.py, lines 101-144) for one
`.tif` file: `none` when the file is skipped (a required counterpart is
missing, or a `.nc` artifact with the same stem already exists), otherwise
the appended group. -/
def processTifEntry (analogRequired withColabeled : Bool) (e : TifEntry) :
    Option FileGroup :=
  match (if analogRequired then e.analog.map some else some none) with
  | none => none
  | some analogFile =>
    match e.results with
    | none => none
    | some resultFile =>
      match (if withColabeled then e.colabeled.map some else some none) with
      | none => none
      | some colabeledFile =>
        if e.nc then none
        else some ⟨e.tif, analogFile, some resultFile, colabeledFile⟩

/-- Embedding of `FileFinder._find_all_relevant_files`: the discovery loop
over all glob-matched `.tif` files, keeping the groups in traversal
order. -/
def find_all_relevant_files (analogRequired withColabeled : Bool)
    (entries : List TifEntry) : List FileGroup :=
  entries.filterMap (processTifEntry analogRequired withColabeled)

/-- A 1 × 34 recording with bumps at samples 1 and 31 (30 frames apart),
separating the behaviour of a truncated and a rounded minimum peak
distance at `fps = 30.6`. -/
def cx6cell : List ℚ :=
  [0, 5, 0, 0, 0, 0, 0, 0, 0, 0,
   0, 0, 0, 0, 0, 0, 0, 0, 0, 0,
   0, 0, 0, 0, 0, 0, 0, 0, 0, 0,
   0, 5, 0, 0]

/-- A 1 × 10 dF/F matrix with peaks at samples 2 and 6. -/
def dff3 : List (List ℚ) := [[0, 0, 5, 0, 0, 0, 5, 0, 0, 0]]

/-- A fused record with 3 cells, one epoch and one time sample. -/
def exRec3 : DataArr := ⟨["all"], [0, 1, 2], [0], [[[1], [2], [3]]]⟩

/-- A fused record with 5 cells, one epoch and one time sample. -/
def exRec5 : DataArr := ⟨["all"], [0, 1, 2, 3, 4], [0], [[[4], [5], [6], [7], [8]]]⟩

/-- The dataset obtained by concatenating `exRec3` and `exRec5`. -/
def dsC4 : OccDataset :=
  ⟨["all"], [0, 1, 2, 3, 4, 5, 6, 7], [0],
   [[[some 1], [some 2], [some 3], [some 4], [some 5], [some 6], [some 7], [some 8]]]⟩

/-- A one-cell record labelled with epoch `run`. -/
def exErun : DataArr := ⟨["run"], [0], [0], [[[1]]]⟩

/-- A one-cell record labelled with epoch `stand`. -/
def exEstand : DataArr := ⟨["stand"], [0], [0], [[[2]]]⟩

/-- The dataset obtained by concatenating `exErun` and `exEstand`: the
second record's epoch label has been silently replaced by the first's. -/
def dsE : OccDataset := ⟨["run"], [0, 1], [0], [[[some 1], [some 2]]]⟩

/-- A one-cell record over three time samples. -/
def exA5 : DataArr := ⟨["all"], [0], [0, 1, 2], [[[1, 2, 3]]]⟩

/-- A one-cell record over two time samples (shorter than `exA5`). -/
def exB5 : DataArr := ⟨["all"], [0], [0, 1], [[[4, 5]]]⟩

/-- The dataset obtained by concatenating `exA5` and `exB5`: its time axis
is the outer join `[0, 1, 2]`, not the last record's `[0, 1]`. -/
def ds5 : OccDataset :=
  ⟨["all"], [0, 1], [0, 1, 2], [[[some 1, some 2, some 3], [some 4, some 5, none]]]⟩

/-- A directory with a single `.tif` whose results counterpart exists, with
no analog, colabeled or previously-computed `.nc` files. -/
def exEntries : List TifEntry :=
  [⟨"fov1.tif", none, some "fov1_results.npz", none, false⟩]

/-- The recording group discovered from `exEntries`. -/
def exGroup : FileGroup := ⟨"fov1.tif", none, some "fov1_results.npz", none⟩

theorem natDist_comm (a b : ℕ) : natDist a b = natDist b a := by
  simp [natDist, Nat.max_comm, Nat.min_comm]

theorem selectPeaks_foldl_pairwise (minDist : ℕ) (l : List ℕ) :
    ∀ acc : List ℕ, acc.Pairwise (fun a b => minDist ≤ natDist a b) →
      (l.foldl
        (fun acc c =>
          if acc.all (fun a => decide (minDist ≤ natDist a c)) then acc ++ [c] else acc)
        acc).Pairwise (fun a b => minDist ≤ natDist a b) := by
  induction l with
  | nil => intro acc h; simpa using h
  | cons c l ih =>
    intro acc h
    rw [List.foldl_cons]
    by_cases hc : acc.all (fun a => decide (minDist ≤ natDist a c)) = true
    · rw [if_pos hc]
      apply ih
      rw [List.pairwise_append]
      refine ⟨h, List.pairwise_singleton _ _, ?_⟩
      intro a ha b hb
      rw [List.mem_singleton] at hb
      subst hb
      simpa using List.all_eq_true.mp hc a ha
    · rw [if_neg hc]
      exact ih acc h

theorem selectPeaks_pairwise (minDist : ℕ) (l : List ℕ) :
    (selectPeaks minDist l).Pairwise (fun a b => minDist ≤ natDist a b) :=
  selectPeaks_foldl_pairwise minDist l [] (List.Pairwise.nil)

theorem peakutilsIndexes_pairwise (cell : List ℚ) (thresh : ℚ) (minDist : ℕ) :
    (peakutilsIndexes cell thresh minDist).Pairwise
      (fun a b => minDist ≤ natDist a b) :=
  selectPeaks_pairwise minDist _

theorem markPeaks_getElem? (peaks : List ℕ) (cell : List ℚ) :
    ∀ (i k : ℕ), (markPeaks peaks i cell)[k]? =
      cell[k]?.map (fun _ => if peaks.contains (i + k) then (1 : ℚ) else 0) := by
  induction cell with
  | nil => intro i k; simp [markPeaks]
  | cons x xs ih =>
    intro i k
    cases k with
    | zero => simp [markPeaks]
    | succ k =>
      rw [markPeaks, List.getElem?_cons_succ, List.getElem?_cons_succ, ih (i + 1) k]
      have : i + 1 + k = i + (k + 1) := by omega
      rw [this]

theorem locate_spikes_ok (m : List (List ℚ)) (fps thresh : ℚ)
    (rows : List (List ℚ))
    (hok : locate_spikes_peakutils (.twoD m) fps thresh = .ok rows) :
    rows = locateSpikesCore m (pyInt fps).toNat thresh := by
  rw [locate_spikes_peakutils] at hok
  by_cases h : 0 < m.length
  · rw [if_pos h] at hok
    exact (Except.ok.injEq _ _ ▸ hok).symm
  · rw [if_neg h] at hok
    exact absurd hok (by simp)

/-- C8: for every fluorescence matrix, sampling rate and threshold, no two
entries marked 1 in one row of the resulting spike matrix are fewer than
`min_separation_frames = int(fps)` samples apart. The peak picker is the
spec-modelled `peakutilsIndexes`. -/
theorem c8_min_separation (m : List (List ℚ)) (fps thresh : ℚ)
    (rows : List (List ℚ)) (r : ℕ) (row : List ℚ) (i j : ℕ)
    (hok : locate_spikes_peakutils (.twoD m) fps thresh = .ok rows)
    (hrow : rows[r]? = some row)
    (hi : row[i]? = some 1) (hj : row[j]? = some 1) (hij : i ≠ j) :
    (pyInt fps).toNat ≤ natDist i j := by
  rw [locate_spikes_ok m fps thresh rows hok] at hrow
  rw [locateSpikesCore, List.getElem?_map, Option.map_eq_some'] at hrow
  obtain ⟨cell, -, hcell⟩ := hrow
  subst hcell
  set peaks := peakutilsIndexes cell thresh (pyInt fps).toNat with hpeaks
  rw [markPeaks_getElem? peaks cell 0 i, Option.map_eq_some'] at hi
  rw [markPeaks_getElem? peaks cell 0 j, Option.map_eq_some'] at hj
  obtain ⟨xi, -, hxi⟩ := hi
  obtain ⟨xj, -, hxj⟩ := hj
  have hmi : i ∈ peaks := by
    by_contra hmem
    rw [Nat.zero_add] at hxi
    rw [if_neg (by simpa [List.elem_iff] using hmem)] at hxi
    norm_num at hxi
  have hmj : j ∈ peaks := by
    by_contra hmem
    rw [Nat.zero_add] at hxj
    rw [if_neg (by simpa [List.elem_iff] using hmem)] at hxj
    norm_num at hxj
  have hsymm : Symmetric (fun a b => (pyInt fps).toNat ≤ natDist a b) := by
    intro a b h
    rwa [natDist_comm]
  exact (peakutilsIndexes_pairwise cell thresh _).forall hsymm hmi hmj hij

/-- C8 witness: on the 1 × 10 matrix `dff3` with `fps = 3` the detector
marks samples 2 and 6 of row 0, so the theorem yields `3 ≤ natDist 2 6`. -/
theorem c8_min_separation_witness : (pyInt 3).toNat ≤ natDist 2 6 := by
  apply c8_min_separation dff3 3 (1/2)
    [[0, 0, 1, 0, 0, 0, 1, 0, 0, 0]] 0 [0, 0, 1, 0, 0, 0, 1, 0, 0, 0] 2 6
  · norm_num [dff3, locate_spikes_peakutils, locateSpikesCore, peakutilsIndexes,
      peakCandidates, candRec, listMax, listMin, sortByAmp, insertByAmp, cellGet,
      selectPeaks, natDist, markPeaks, pyInt, List.foldr, List.foldl, List.all,
      List.getD, max_def, min_def]
  · rfl
  · rfl
  · rfl
  · decide

/-- C7: on the 2 × 10 matrix with cell 0 = `[0,0,5,0,0,0,5,0,0,0]` and cell
1 all zeros, with threshold 0.5 of the row range and minimum separation 3
frames (`fps = 3`), the detector returns a 2 × 10 matrix whose row 0 has 1s
exactly at indices 2 and 6 and whose row 1 (an entirely flat trace, handled
without error) is all zeros. -/
theorem c7_scenario :
    locate_spikes_peakutils (.twoD [[0, 0, 5, 0, 0, 0, 5, 0, 0, 0],
      [0, 0, 0, 0, 0, 0, 0, 0, 0, 0]]) 3 (1/2) =
    .ok [[0, 0, 1, 0, 0, 0, 1, 0, 0, 0], [0, 0, 0, 0, 0, 0, 0, 0, 0, 0]] := by
  norm_num [locate_spikes_peakutils, locateSpikesCore, peakutilsIndexes,
    peakCandidates, candRec, listMax, listMin, sortByAmp, insertByAmp, cellGet,
    selectPeaks, natDist, markPeaks, pyInt, List.foldr, List.foldl, List.all,
    List.getD, max_def, min_def]

set_option maxRecDepth 40000 in
/-- C6 counterexample: at `fps = 30.6` the detector behaves as with minimum
peak distance `int(30.6) = 30`, not `round(30.6) = 31`: on `cx6cell` (bumps
30 frames apart) it keeps both peaks, while a `round(fps)` detector would
keep only one. -/
theorem c6_counterexample :
    locate_spikes_peakutils (.twoD [cx6cell]) (153/5) (65/100) ≠
      .ok (locateSpikesCore [cx6cell] (pyRound (153/5)).toNat (65/100)) := by
  norm_num [cx6cell, locate_spikes_peakutils, locateSpikesCore, peakutilsIndexes,
    peakCandidates, candRec, listMax, listMin, sortByAmp, insertByAmp, cellGet,
    selectPeaks, natDist, markPeaks, pyInt, pyRound,
    List.foldr, List.foldl, List.all, List.getD, max_def, min_def]

/-- C6 (amended): when the caller does not supply a minimum spike
separation, the spike detector uses a minimum peak distance equal to
`int(fps)` — truncation toward zero of the sampling rate, not rounding. -/
theorem c6_min_dist_truncates (m : List (List ℚ)) (fps thresh : ℚ)
    (hm : 0 < m.length) (hfps : 0 ≤ fps) :
    locate_spikes_peakutils (.twoD m) fps thresh =
      .ok (locateSpikesCore m (Int.toNat ⌊fps⌋) thresh) := by
  rw [locate_spikes_peakutils, if_pos hm, pyInt, if_pos hfps]

/-- C6 witness: the amended theorem applied to a concrete 1 × 3 matrix at
`fps = 30.6`. -/
theorem c6_min_dist_truncates_witness :
    locate_spikes_peakutils (.twoD [[0, 0, 5]]) (153/5) (65/100) =
      .ok (locateSpikesCore [[0, 0, 5]] (Int.toNat ⌊(153/5 : ℚ)⌋) (65/100)) :=
  c6_min_dist_truncates [[0, 0, 5]] (153/5) (65/100) (by decide) (by norm_num)

/-- C10: a non-2-D input, or a 2-D input with zero rows, makes the spike
detector fail its assertion before producing output; every 2-D input with
at least one row returns normally. -/
theorem c10_assertion (d : NpArray) (fps thresh : ℚ) :
    (¬(d.ndim = 2 ∧ 0 < d.shape0) →
      locate_spikes_peakutils d fps thresh = .error "AssertionError") ∧
    ((d.ndim = 2 ∧ 0 < d.shape0) →
      ∃ out, locate_spikes_peakutils d fps thresh = .ok out) := by
  cases d with
  | oneD v =>
    refine ⟨fun _ => rfl, fun h => absurd h.1 (by simp [NpArray.ndim])⟩
  | twoD m =>
    constructor
    · intro h
      have hm : ¬ 0 < m.length := fun hm => h ⟨rfl, hm⟩
      rw [locate_spikes_peakutils, if_neg hm]
    · intro h
      have h2 : 0 < m.length := by simpa [NpArray.shape0] using h.2
      exact ⟨_, by rw [locate_spikes_peakutils, if_pos h2]⟩

/-- C10 witness: a 1-D vector trips the assertion; a 1 × 1 matrix does
not. -/
theorem c10_assertion_witness :
    locate_spikes_peakutils (.oneD [1, 2]) 30 (1/2) = .error "AssertionError" ∧
    ∃ out, locate_spikes_peakutils (.twoD [[1]]) 30 (1/2) = .ok out :=
  ⟨(c10_assertion (.oneD [1, 2]) 30 (1/2)).1 (by simp [NpArray.ndim]),
   (c10_assertion (.twoD [[1]]) 30 (1/2)).2 (by simp [NpArray.ndim, NpArray.shape0])⟩

theorem mem_candRec_bound (cut : ℚ) :
    ∀ (rest : List ℚ) (prev cur : ℚ) (i j : ℕ),
      j ∈ candRec cut prev cur i rest → i ≤ j ∧ j < i + rest.length := by
  intro rest
  induction rest with
  | nil =>
    intro prev cur i j h
    simp [candRec] at h
  | cons next rest ih =>
    intro prev cur i j h
    rw [candRec] at h
    rcases List.mem_append.mp h with h1 | h2
    · have hj : j = i := by
        by_cases hc : prev < cur ∧ next < cur ∧ cut < cur
        · rw [if_pos hc] at h1
          exact List.mem_singleton.mp h1
        · rw [if_neg hc] at h1
          exact absurd h1 (List.not_mem_nil j)
      subst hj
      rw [List.length_cons]
      omega
    · have := ih cur next (i + 1) j h2
      rw [List.length_cons]
      omega

theorem mem_peakCandidates_bound (cell : List ℚ) (thresh : ℚ) (j : ℕ)
    (h : j ∈ peakCandidates cell thresh) : j + 1 < cell.length := by
  match cell with
  | [] => simp [peakCandidates] at h
  | [x] => simp [peakCandidates] at h
  | x0 :: x1 :: rest =>
    rw [peakCandidates] at h
    have := mem_candRec_bound _ rest x0 x1 1 j h
    rw [List.length_cons, List.length_cons]
    omega

theorem mem_insertByAmp (cell : List ℚ) (i a : ℕ) :
    ∀ l : List ℕ, a ∈ insertByAmp cell i l ↔ a = i ∨ a ∈ l := by
  intro l
  induction l with
  | nil => simp [insertByAmp]
  | cons j rest ih =>
    rw [insertByAmp]
    by_cases hc : cellGet cell j < cellGet cell i ∨
        (cellGet cell i = cellGet cell j ∧ i ≤ j)
    · rw [if_pos hc]
      simp [List.mem_cons]
    · rw [if_neg hc]
      simp only [List.mem_cons, ih]
      tauto

theorem mem_sortByAmp (cell : List ℚ) :
    ∀ (l : List ℕ) (a : ℕ), a ∈ sortByAmp cell l ↔ a ∈ l := by
  intro l
  induction l with
  | nil => intro a; simp [sortByAmp]
  | cons j rest ih =>
    intro a
    have hstep : sortByAmp cell (j :: rest) = insertByAmp cell j (sortByAmp cell rest) := rfl
    rw [hstep, mem_insertByAmp, ih, List.mem_cons]

theorem mem_selectPeaks_foldl (minDist : ℕ) :
    ∀ (l acc : List ℕ) (x : ℕ),
      x ∈ l.foldl
        (fun acc c =>
          if acc.all (fun a => decide (minDist ≤ natDist a c)) then acc ++ [c] else acc)
        acc → x ∈ acc ∨ x ∈ l := by
  intro l
  induction l with
  | nil =>
    intro acc x h
    exact Or.inl h
  | cons c rest ih =>
    intro acc x h
    rw [List.foldl_cons] at h
    rcases ih _ x h with h1 | h2
    · by_cases hc : acc.all (fun a => decide (minDist ≤ natDist a c)) = true
      · rw [if_pos hc] at h1
        rcases List.mem_append.mp h1 with ha | hb
        · exact Or.inl ha
        · exact Or.inr (List.mem_cons.mpr (Or.inl (List.mem_singleton.mp hb)))
      · rw [if_neg hc] at h1
        exact Or.inl h1
    · exact Or.inr (List.mem_cons_of_mem _ h2)

theorem mem_peakutilsIndexes_bound (cell : List ℚ) (thresh : ℚ) (minDist : ℕ)
    (i : ℕ) (h : i ∈ peakutilsIndexes cell thresh minDist) : i + 1 < cell.length := by
  rw [peakutilsIndexes, selectPeaks] at h
  rcases mem_selectPeaks_foldl minDist _ [] i h with h0 | h1
  · exact absurd h0 (List.not_mem_nil i)
  · exact mem_peakCandidates_bound cell thresh i ((mem_sortByAmp cell _ i).mp h1)

/-- C3: the per-cell epoch counts of `_find_spikes` are the number of
spikes in `[0, before)`, the number in `[before, before+during)` scaled by
`before/during`, and the number in `[before+during, total)` scaled by
`before/after`; in particular a cell with 2 spikes before, 1 during and 1
after under `before = 100`, `during = 50`, `total = 200` yields
`(2, 2.0, 2.0)`. -/
theorem c3_epoch_counts :
    (∀ (dff : List (List ℚ)) (fps : ℚ) (b d a : ℕ),
      0 < b → 0 < d → 0 < a →
      (∀ cell ∈ dff, cell.length ≤ b + d + a) →
      (find_spikes dff fps b d a).2 = dff.map (fun cell =>
        (((peakutilsIndexes cell (8/10) (pyInt fps).toNat).countP
            (fun i => decide (i < b)) : ℚ),
         ((peakutilsIndexes cell (8/10) (pyInt fps).toNat).countP
            (fun i => decide (b ≤ i ∧ i < b + d)) : ℚ) * ((b : ℚ) / (d : ℚ)),
         ((peakutilsIndexes cell (8/10) (pyInt fps).toNat).countP
            (fun i => decide (b + d ≤ i ∧ i < b + d + a)) : ℚ) * ((b : ℚ) / (a : ℚ))))) ∧
    findSpikesCellCounts [10, 20, 120, 180] 100 50 50 = (2, 2, 2) := by
  constructor
  · intro dff fps b d a hb hd ha hlen
    rw [find_spikes]
    apply List.map_congr_left
    intro cell hcell
    rw [findSpikesCellCounts]
    have hpred2 : ∀ i : ℕ,
        (decide (b ≤ i ∧ i < b + d)) = (decide (b ≤ i) && decide (i < b + d)) := by
      intro i
      exact Bool.decide_and _ _
    have hpred3 :
        (peakutilsIndexes cell (8/10) (pyInt fps).toNat).filter
            (fun i => decide (b + d ≤ i ∧ i < b + d + a)) =
          (peakutilsIndexes cell (8/10) (pyInt fps).toNat).filter
            (fun i => decide (b + d ≤ i)) := by
      apply List.filter_congr
      intro i hi
      have hbound := mem_peakutilsIndexes_bound cell (8/10) (pyInt fps).toNat i hi
      have hlt : i < b + d + a := by
        have := hlen cell hcell
        omega
      simp [hlt]
    simp only [List.countP_eq_length_filter, hpred2, hpred3]
  · norm_num [findSpikesCellCounts, List.filter]

/-- C3 witness: the counting theorem applied to the concrete 1 × 10 matrix
`dff3` with `fps = 3` and epochs `(3, 3, 4)`. -/
theorem c3_epoch_counts_witness :
    (find_spikes dff3 3 3 3 4).2 = dff3.map (fun cell =>
      (((peakutilsIndexes cell (8/10) (pyInt 3).toNat).countP
          (fun i => decide (i < 3)) : ℚ),
       ((peakutilsIndexes cell (8/10) (pyInt 3).toNat).countP
          (fun i => decide (3 ≤ i ∧ i < 3 + 3)) : ℚ) * ((3 : ℚ) / (3 : ℚ)),
       ((peakutilsIndexes cell (8/10) (pyInt 3).toNat).countP
          (fun i => decide (3 + 3 ≤ i ∧ i < 3 + 3 + 4)) : ℚ) * ((3 : ℚ) / (4 : ℚ)))) :=
  c3_epoch_counts.1 dff3 3 3 3 4 (by decide) (by decide) (by decide)
    (by intro cell hcell; fin_cases hcell; decide)

/-- C1 counterexample: with 100 total frames, 80 before and 50 during the
stimulus, `_get_params` stores `frames_after_stim = -30` — the negative
derived epoch length is kept, and no `EpochLengthError` (which does not
exist anywhere in the source) is raised. -/
theorem c1_counterexample :
    (get_params (some ⟨30, [1, 2], 100⟩) 80 50).frames_after_stim = -30 ∧
    (get_params (some ⟨30, [1, 2], 100⟩) 80 50).frames_after_stim < 0 := by
  constructor
  · rfl
  · decide

/-- C1 (amended): `_get_params` always stores
`frames_after_stim = total - (before + during)`, silently even when the
result is negative; whenever `before + during ≤ total` the stored value is
the claimed difference and is nonnegative. -/
theorem c1_after_frames (m : ScanImageMeta) (fb le : ℤ) :
    (get_params (some m) fb le).frames_after_stim =
      m.framesPerSlice - (fb + le) ∧
    (fb + le ≤ m.framesPerSlice →
      0 ≤ (get_params (some m) fb le).frames_after_stim) := by
  refine ⟨rfl, fun h => ?_⟩
  show 0 ≤ m.framesPerSlice - (fb + le)
  omega

/-- C1 witness: the amended theorem at 200 total frames, 80 before and 50
during, where the stored value is 70 ≥ 0. -/
theorem c1_after_frames_witness :
    (get_params (some ⟨30, [1, 2], 200⟩) 80 50).frames_after_stim =
      (200 : ℤ) - (80 + 50) ∧
    0 ≤ (get_params (some ⟨30, [1, 2], 200⟩) 80 50).frames_after_stim :=
  ⟨(c1_after_frames ⟨30, [1, 2], 200⟩ 80 50).1,
   (c1_after_frames ⟨30, [1, 2], 200⟩ 80 50).2 (by decide)⟩

theorem reindexDa_ok (crdE : List String) (crdN : List ℕ) (crdT : List ℚ)
    (da rda : DataArr) (h : reindexDa crdE crdN crdT da = .ok rda) :
    rda = ⟨crdE, crdN, crdT, da.data⟩ := by
  rw [reindexDa] at h
  split at h
  · exact (Except.ok.inj h).symm
  · exact absurd h (by simp)

theorem reindexDa_ok_cond (crdE : List String) (crdN : List ℕ) (crdT : List ℚ)
    (da rda : DataArr) (h : reindexDa crdE crdN crdT da = .ok rda) :
    da.data.length = crdE.length := by
  rw [reindexDa] at h
  by_cases hc : da.data.length = crdE.length ∧
      ∀ p ∈ da.data, p.length = crdN.length ∧ ∀ row ∈ p, row.length = crdT.length
  · exact hc.1
  · rw [if_neg hc] at h
    exact absurd h (by simp)

theorem concatLoop_components :
    ∀ (l : List DataArr) (crdE : List String) (crdT : List ℚ) (n : ℕ)
      (rs : List DataArr),
      concatLoop l crdE crdT n = .ok rs →
      rs.map (fun r => r.neuron) =
        offsetRanges n (l.map (fun da => da.neuron.length)) ∧
      rs.map (fun r => r.time) = adoptedTimes crdT l ∧
      rs.map (fun r => r.epoch) = l.map (fun _ => crdE) ∧
      rs.map (fun r => r.data) = l.map (fun da => da.data) := by
  intro l
  induction l with
  | nil =>
    intro crdE crdT n rs h
    simp only [concatLoop] at h
    have hrs : rs = [] := (Except.ok.inj h).symm
    subst hrs
    simp [offsetRanges, adoptedTimes]
  | cons da rest ih =>
    intro crdE crdT n rs h
    simp only [concatLoop] at h
    split at h
    next e heq => exact absurd h (by simp)
    next rda heq =>
      split at h
      next e2 heq2 => exact absurd h (by simp)
      next rs' heq2 =>
        have hrs : rs = rda :: rs' := (Except.ok.inj h).symm
        subst hrs
        have hrda := reindexDa_ok _ _ _ _ _ heq
        subst hrda
        obtain ⟨h1, h2, h3, h4⟩ := ih crdE _ (n + da.neuron.length) rs' heq2
        refine ⟨?_, ?_, ?_, ?_⟩
        · simp only [List.map_cons, offsetRanges, h1]
        · simp only [List.map_cons, adoptedTimes, h2]
        · simp only [List.map_cons, h3]
        · simp only [List.map_cons, h4]

theorem concatLoop_ok_of :
    ∀ (l : List DataArr) (crdE : List String) (crdT : List ℚ) (n : ℕ),
      (∀ da ∈ l, da.wf) →
      (∀ da ∈ l, da.epoch.length = crdE.length) →
      ∃ rs, concatLoop l crdE crdT n = .ok rs := by
  intro l
  induction l with
  | nil =>
    intro crdE crdT n _ _
    exact ⟨[], rfl⟩
  | cons da rest ih =>
    intro crdE crdT n hwf hlen
    have hwf_da := hwf da (List.mem_cons_self da rest)
    have hcond : da.data.length = crdE.length ∧
        ∀ p ∈ da.data, p.length = (List.range' n da.neuron.length).length ∧
          ∀ row ∈ p,
            row.length = (if da.time.length ≠ crdT.length then da.time else crdT).length := by
      refine ⟨hwf_da.1.trans (hlen da (List.mem_cons_self da rest)), ?_⟩
      intro p hp
      refine ⟨(hwf_da.2 p hp).1.trans (List.length_range' _ _ _).symm, ?_⟩
      intro row hr
      rw [(hwf_da.2 p hp).2 row hr]
      by_cases hx : da.time.length ≠ crdT.length
      · rw [if_pos hx]
      · rw [if_neg hx]
        push_neg at hx
        exact hx
    have hre : reindexDa crdE (List.range' n da.neuron.length)
        (if da.time.length ≠ crdT.length then da.time else crdT) da =
        .ok ⟨crdE, List.range' n da.neuron.length,
          (if da.time.length ≠ crdT.length then da.time else crdT), da.data⟩ := by
      rw [reindexDa, if_pos hcond]
    obtain ⟨rs', hrec⟩ := ih crdE
      (if da.time.length ≠ crdT.length then da.time else crdT)
      (n + da.neuron.length)
      (fun db hdb => hwf db (List.mem_cons_of_mem da hdb))
      (fun db hdb => hlen db (List.mem_cons_of_mem da hdb))
    refine ⟨⟨crdE, List.range' n da.neuron.length,
      (if da.time.length ≠ crdT.length then da.time else crdT), da.data⟩ :: rs', ?_⟩
    simp only [concatLoop]
    rw [hre, hrec]

theorem concatLoop_epoch_of_ok :
    ∀ (l : List DataArr) (crdE : List String) (crdT : List ℚ) (n : ℕ)
      (rs : List DataArr),
      concatLoop l crdE crdT n = .ok rs →
      ∀ da ∈ l, da.data.length = crdE.length := by
  intro l
  induction l with
  | nil =>
    intro crdE crdT n rs _ da hda
    exact absurd hda (List.not_mem_nil da)
  | cons da rest ih =>
    intro crdE crdT n rs h
    simp only [concatLoop] at h
    split at h
    next e heq => exact absurd h (by simp)
    next rda heq =>
      split at h
      next e2 heq2 => exact absurd h (by simp)
      next rs' heq2 =>
        intro db hdb
        rcases List.mem_cons.mp hdb with rfl | hdb'
        · exact reindexDa_ok_cond _ _ _ _ _ heq
        · exact ih crdE _ _ rs' heq2 db hdb'

/-- C2 counterexample: the epoch label sets of `exErun` and `exEstand`
differ, yet the concatenation succeeds — no `DimensionMismatchError`
(which exists nowhere in the source) — and silently replaces the second
record's epoch labels with the first record's. -/
theorem c2_counterexample :
    concat_vasc_occ_dataarrays [exErun, exEstand] = .ok dsE ∧
    dsE.epoch = ["run"] ∧ exEstand.epoch = ["stand"] :=
  ⟨by decide, by decide, by decide⟩

/-- C2 (amended): for well-formed records, the concatenation fails only on
a mismatch of the epoch label sets' *sizes* (the `ValueError` of rebuilding
a `DataArray` with conflicting coordinate sizes); epoch label sets of equal
size that differ in content are silently replaced by the first record's
labels, and the merge succeeds. -/
theorem c2_epoch_mismatch (d0 : DataArr) (rest : List DataArr)
    (hwf : ∀ da ∈ d0 :: rest, da.wf) :
    ((∃ ds, concat_vasc_occ_dataarrays (d0 :: rest) = .ok ds) ↔
      ∀ da ∈ d0 :: rest, da.epoch.length = d0.epoch.length) ∧
    (∀ ds, concat_vasc_occ_dataarrays (d0 :: rest) = .ok ds →
      ds.epoch = d0.epoch) := by
  constructor
  · constructor
    · rintro ⟨ds, hds⟩
      simp only [concat_vasc_occ_dataarrays] at hds
      split at hds
      next e heq => exact absurd hds (by simp)
      next rs heq =>
        intro da hda
        have hdata := concatLoop_epoch_of_ok _ _ _ _ _ heq da hda
        exact ((hwf da hda).1.symm.trans hdata)
    · intro hall
      obtain ⟨rs, hrs⟩ := concatLoop_ok_of (d0 :: rest) d0.epoch d0.time 0 hwf hall
      refine ⟨xrConcatNeuron rs d0.epoch, ?_⟩
      simp only [concat_vasc_occ_dataarrays]
      rw [hrs]
  · intro ds hds
    simp only [concat_vasc_occ_dataarrays] at hds
    split at hds
    next e heq => exact absurd hds (by simp)
    next rs heq =>
      have : ds = xrConcatNeuron rs d0.epoch := (Except.ok.inj hds).symm
      subst this
      rfl

/-- C2 witness: the amended theorem applied to the two well-formed records
`exErun` and `exEstand`, whose epoch label sets have equal size, so the
concatenation succeeds. -/
theorem c2_epoch_mismatch_witness :
    ∃ ds, concat_vasc_occ_dataarrays [exErun, exEstand] = .ok ds :=
  (c2_epoch_mismatch exErun [exEstand] (by decide)).1.mpr (by decide)

theorem foldr_append_offsetRanges :
    ∀ (ns : List ℕ) (o : ℕ),
      (offsetRanges o ns).foldr (· ++ ·) [] = List.range' o ns.sum := by
  intro ns
  induction ns with
  | nil => intro o; simp [offsetRanges]
  | cons n ns ih =>
    intro o
    simp only [offsetRanges, List.foldr_cons, ih, List.sum_cons]
    have := List.range'_append o n ns.sum 1
    simpa [Nat.one_mul, Nat.add_comm] using this

theorem offsetRanges_block :
    ∀ (ns : List ℕ) (o j n : ℕ), ns[j]? = some n →
      ((((offsetRanges o ns).foldr (· ++ ·) []).drop ((ns.take j).sum)).take n) =
        List.range' (o + (ns.take j).sum) n := by
  intro ns
  induction ns with
  | nil =>
    intro o j n h
    simp at h
  | cons m ns ih =>
    intro o j n h
    cases j with
    | zero =>
      rw [List.getElem?_cons_zero] at h
      have hmn : m = n := Option.some.inj h
      subst hmn
      simp only [List.take_zero, List.sum_nil, List.drop_zero, Nat.add_zero]
      simp only [offsetRanges, List.foldr_cons]
      have hlen : (List.range' o m).length = m := List.length_range' _ _ _
      exact List.take_left' hlen
    | succ j =>
      rw [List.getElem?_cons_succ] at h
      simp only [offsetRanges, List.foldr_cons, List.take_succ_cons, List.sum_cons]
      have hlen : (List.range' o m).length = m := List.length_range' _ _ _
      rw [show m + (ns.take j).sum = (List.range' o m).length + (ns.take j).sum by
        rw [hlen]]
      rw [List.drop_append]
      have := ih (o + m) j n h
      have harith : o + m + (ns.take j).sum = o + (m + (ns.take j).sum) := by omega
      rw [harith] at this
      rw [hlen]
      exact this

/-- C4: concatenation reassigns contiguous cell indices in input order —
the resulting neuron coordinate is `[0, Σ nᵢ)` and the `j`-th record's
cells occupy the block starting at `n₀ + ⋯ + n_{j-1}`. -/
theorem c4_contiguous_indices (d0 : DataArr) (rest : List DataArr)
    (ds : OccDataset)
    (hok : concat_vasc_occ_dataarrays (d0 :: rest) = .ok ds) :
    ds.neuron = List.range (((d0 :: rest).map (fun da => da.neuron.length)).sum) ∧
    ∀ (j : ℕ) (da : DataArr), (d0 :: rest)[j]? = some da →
      ((ds.neuron.drop ((((d0 :: rest).take j).map (fun da => da.neuron.length)).sum)).take
          da.neuron.length) =
        List.range' ((((d0 :: rest).take j).map (fun da => da.neuron.length)).sum)
          da.neuron.length := by
  simp only [concat_vasc_occ_dataarrays] at hok
  split at hok
  next e heq => exact absurd hok (by simp)
  next rs heq =>
    have hds : ds = xrConcatNeuron rs d0.epoch := (Except.ok.inj hok).symm
    subst hds
    obtain ⟨h1, -, -, -⟩ := concatLoop_components (d0 :: rest) d0.epoch d0.time 0 rs heq
    have hneuron : (xrConcatNeuron rs d0.epoch).neuron =
        (rs.map (fun r => r.neuron)).foldr (· ++ ·) [] := rfl
    rw [hneuron, h1]
    constructor
    · rw [foldr_append_offsetRanges, List.range_eq_range']
    · intro j da hj
      have hns : ((d0 :: rest).map (fun da => da.neuron.length))[j]? =
          some da.neuron.length := by
        rw [List.getElem?_map, hj]
        rfl
      have hblock := offsetRanges_block ((d0 :: rest).map (fun da => da.neuron.length))
        0 j da.neuron.length hns
      rw [List.map_take]
      simpa using hblock

/-- C4 witness: merging the 3-cell record `exRec3` with the 5-cell record
`exRec5` yields neuron indices `[0..8)`, the second record's cells sitting
at `[3..8)`. -/
theorem c4_contiguous_indices_witness :
    dsC4.neuron = List.range (([exRec3, exRec5].map (fun da => da.neuron.length)).sum) ∧
    (dsC4.neuron.drop 3).take 5 = [3, 4, 5, 6, 7] := by
  obtain ⟨h1, h2⟩ := c4_contiguous_indices exRec3 [exRec5] dsC4 (by decide)
  refine ⟨h1, ?_⟩
  have h3 := h2 1 exRec5 rfl
  have e1 : (([exRec3, exRec5].take 1).map (fun da => da.neuron.length)).sum = 3 := by
    decide
  have e2 : exRec5.neuron.length = 5 := by decide
  rw [e1, e2] at h3
  exact h3.trans (by decide)

theorem mem_insertSorted (q a : ℚ) :
    ∀ l : List ℚ, a ∈ insertSorted q l ↔ a = q ∨ a ∈ l := by
  intro l
  induction l with
  | nil => simp [insertSorted]
  | cons x xs ih =>
    rw [insertSorted]
    by_cases hc : q ≤ x
    · rw [if_pos hc]
      simp [List.mem_cons]
    · rw [if_neg hc]
      simp only [List.mem_cons, ih]
      tauto

theorem mem_sortedDedup (l : List ℚ) (a : ℚ) : a ∈ sortedDedup l ↔ a ∈ l := by
  rw [sortedDedup]
  have hfold : ∀ m : List ℚ, a ∈ m.foldr insertSorted [] ↔ a ∈ m := by
    intro m
    induction m with
    | nil => simp
    | cons x xs ih =>
      rw [List.foldr_cons, mem_insertSorted]
      simp [List.mem_cons, ih]
  rw [hfold, List.mem_dedup]

theorem mem_foldr_append {α : Type} (ls : List (List α)) (a : α) :
    a ∈ ls.foldr (· ++ ·) [] ↔ ∃ l ∈ ls, a ∈ l := by
  induction ls with
  | nil => simp
  | cons x xs ih => simp [List.mem_append, ih]

theorem mem_unionTimes (ls : List (List ℚ)) (a : ℚ) :
    a ∈ unionTimes ls ↔ ∃ l ∈ ls, a ∈ l := by
  rw [unionTimes, mem_sortedDedup, mem_foldr_append]

/-- C5 counterexample: `exA5` (3 time samples) and `exB5` (2 time samples)
disagree on time-axis length; the concatenation succeeds, but the merged
result carries the outer-join time coordinate `[0, 1, 2]` — the *first*
record's — and not the most recently-processed record's `[0, 1]`. -/
theorem c5_counterexample :
    concat_vasc_occ_dataarrays [exA5, exB5] = .ok ds5 ∧ ds5.time ≠ exB5.time :=
  ⟨by decide, by decide⟩

/-- C5 (amended): on records that may disagree on time-axis length the
concatenation still succeeds (for well-formed records with equal epoch
sizes), and the merged result's time coordinate is the outer join (sorted
union) of the per-record adopted time coordinates — a record's own
coordinate is adopted when its length differs from the previously adopted
one — rather than the last record's coordinate. -/
theorem c5_time_outer_join (d0 : DataArr) (rest : List DataArr)
    (hwf : ∀ da ∈ d0 :: rest, da.wf)
    (hlen : ∀ da ∈ d0 :: rest, da.epoch.length = d0.epoch.length) :
    ∃ ds, concat_vasc_occ_dataarrays (d0 :: rest) = .ok ds ∧
      ∀ q : ℚ, (q ∈ ds.time ↔ ∃ ct ∈ adoptedTimes d0.time (d0 :: rest), q ∈ ct) := by
  obtain ⟨rs, hrs⟩ := concatLoop_ok_of (d0 :: rest) d0.epoch d0.time 0 hwf hlen
  refine ⟨xrConcatNeuron rs d0.epoch, ?_, ?_⟩
  · simp only [concat_vasc_occ_dataarrays]
    rw [hrs]
  · intro q
    have htime : (xrConcatNeuron rs d0.epoch).time =
        unionTimes (rs.map (fun r => r.time)) := rfl
    obtain ⟨-, h2, -, -⟩ := concatLoop_components _ _ _ _ _ hrs
    rw [htime, mem_unionTimes, h2]

/-- C5 witness: the amended theorem applied to `exA5` and `exB5`; the time
value 1 belongs to the merged coordinate because it belongs to an adopted
coordinate. -/
theorem c5_time_outer_join_witness : (1 : ℚ) ∈ ds5.time := by
  obtain ⟨ds, hds, hiff⟩ := c5_time_outer_join exA5 [exB5] (by decide) (by decide)
  have h0 : concat_vasc_occ_dataarrays [exA5, exB5] = .ok ds5 := by decide
  rw [h0] at hds
  have hds5 : ds5 = ds := Except.ok.inj hds
  rw [hds5]
  exact (hiff 1).mpr ⟨exA5.time, by decide, by decide⟩

/-- C9: every group returned by file discovery carries a results file, and
stems from a directory entry that has no previously-computed `.nc`
artifact — entries missing a mandatory counterpart or already analyzed are
skipped, never returned. -/
theorem c9_groups (analogRequired withColabeled : Bool) (entries : List TifEntry) :
    ∀ g ∈ find_all_relevant_files analogRequired withColabeled entries,
      g.caiman.isSome = true ∧
      ∃ e ∈ entries, e.tif = g.tif ∧ e.nc = false ∧ e.results = g.caiman := by
  intro g hg
  rw [find_all_relevant_files] at hg
  obtain ⟨e, he, hpe⟩ := List.mem_filterMap.mp hg
  rw [processTifEntry] at hpe
  split at hpe
  next => exact absurd hpe (by simp)
  next analogFile heqa =>
    split at hpe
    next => exact absurd hpe (by simp)
    next resultFile heqr =>
      split at hpe
      next => exact absurd hpe (by simp)
      next colabeledFile heqc =>
        split at hpe
        next => exact absurd hpe (by simp)
        next hnc =>
          have hgval : FileGroup.mk e.tif analogFile (some resultFile) colabeledFile = g :=
            Option.some.inj hpe
          subst hgval
          refine ⟨rfl, e, he, rfl, ?_, heqr⟩
          simpa using hnc

/-- C9 witness: the theorem applied to the concrete directory `exEntries`,
whose single discovered group is `exGroup`. -/
theorem c9_groups_witness : exGroup.caiman.isSome = true :=
  (c9_groups false false exEntries exGroup (by decide)).1
